import Mathlib

/-!
Verification development for the funny-arena rating service (`src/app.py`).

The Python module is shallowly embedded: Python `dict`s become association
lists with unique keys (`dictGet` / `setKey` / `eraseKey` / `setdefault`
mirror `d[k]`, `d[k] = v`, `d.pop(k, None)`, `d.setdefault(k, v)`), float
ratings become real numbers, the persisted JSON document becomes the
`StoredDoc` sum of the two document shapes the loader distinguishes with
its `"elos" in stored` test, and fallible operations (KeyError and the
`RuntimeError` raised by `select_battle`) return `Option` / `Except`.
Randomness in `select_battle` is made explicit: each call of
`random.choice` / `random.sample` is replaced by an index parameter taken
modulo the population size, so every possible draw corresponds to some
parameter value.
-/

namespace FunnyArena

/-- Python `d[key]` on an association list: the value at the first matching
key, `none` when absent (a `KeyError` in Python). -/
def dictGet {α : Type} : List (String × α) → String → Option α
  | [], _ => none
  | (k, v) :: rest, key => if k = key then some v else dictGet rest key

/-- Python `d[key] = v`: replace the value at the first matching key in
place, append `(key, v)` when the key is absent. -/
def setKey {α : Type} : List (String × α) → String → α → List (String × α)
  | [], key, v => [(key, v)]
  | (k, w) :: rest, key, v =>
    if k = key then (key, v) :: rest else (k, w) :: setKey rest key v

/-- Python `d.pop(key, None)`'s removal effect: drop the first entry with
the given key, keep the list unchanged when the key is absent. -/
def eraseKey {α : Type} : List (String × α) → String → List (String × α)
  | [], _ => []
  | (k, w) :: rest, key => if k = key then rest else (k, w) :: eraseKey rest key

/-- Python `d.setdefault(key, v)`: insert `(key, v)` only when the key is
absent. -/
def setdefault {α : Type} (l : List (String × α)) (key : String) (v : α) :
    List (String × α) :=
  match dictGet l key with
  | some _ => l
  | none => l ++ [(key, v)]

/-- The keys of an association list, in order. -/
def keys {α : Type} (l : List (String × α)) : List String :=
  l.map Prod.fst

theorem dictGet_append {α : Type} (l₁ l₂ : List (String × α)) (key : String) :
    dictGet (l₁ ++ l₂) key =
      match dictGet l₁ key with
      | some v => some v
      | none => dictGet l₂ key := by
  induction l₁ with
  | nil => simp [dictGet]
  | cons p rest ih =>
    obtain ⟨k, v⟩ := p
    by_cases h : k = key <;> simp [dictGet, h, ih]

theorem dictGet_setKey_self {α : Type} (l : List (String × α)) (key : String) (v : α) :
    dictGet (setKey l key v) key = some v := by
  induction l with
  | nil => simp [setKey, dictGet]
  | cons p rest ih =>
    obtain ⟨k, w⟩ := p
    by_cases h : k = key <;> simp [setKey, dictGet, h, ih]

@[simp] theorem keys_nil {α : Type} : keys ([] : List (String × α)) = [] := rfl

@[simp] theorem keys_cons {α : Type} (p : String × α) (l : List (String × α)) :
    keys (p :: l) = p.1 :: keys l := rfl

theorem dictGet_setKey_ne {α : Type} (l : List (String × α)) {key key' : String} (v : α)
    (h : key' ≠ key) : dictGet (setKey l key v) key' = dictGet l key' := by
  induction l with
  | nil => simp [setKey, dictGet, Ne.symm h]
  | cons p rest ih =>
    obtain ⟨k, w⟩ := p
    by_cases hk : k = key
    · subst hk
      simp [setKey, dictGet, Ne.symm h, ih, h]
    · by_cases hk' : k = key' <;> simp [setKey, dictGet, hk, hk', ih, h]

theorem dictGet_eq_none_of_not_mem_keys {α : Type} {l : List (String × α)} {key : String}
    (h : key ∉ keys l) : dictGet l key = none := by
  induction l with
  | nil => simp [dictGet]
  | cons p rest ih =>
    obtain ⟨k, v⟩ := p
    simp only [keys_cons, List.mem_cons, not_or] at h
    have hk : k ≠ key := fun hk => h.1 hk.symm
    simp only [dictGet, if_neg hk]
    exact ih h.2

theorem dictGet_eraseKey_self {α : Type} {l : List (String × α)} {key : String}
    (h : (keys l).Nodup) : dictGet (eraseKey l key) key = none := by
  induction l with
  | nil => simp [eraseKey, dictGet]
  | cons p rest ih =>
    obtain ⟨k, v⟩ := p
    simp only [keys_cons, List.nodup_cons] at h
    by_cases hk : k = key
    · subst hk
      simp only [eraseKey, if_pos rfl]
      exact dictGet_eq_none_of_not_mem_keys h.1
    · simp [eraseKey, dictGet, hk, ih h.2]

theorem dictGet_eraseKey_ne {α : Type} (l : List (String × α)) {key key' : String}
    (h : key' ≠ key) : dictGet (eraseKey l key) key' = dictGet l key' := by
  induction l with
  | nil => simp [eraseKey]
  | cons p rest ih =>
    obtain ⟨k, v⟩ := p
    by_cases hk : k = key
    · subst hk
      simp [eraseKey, dictGet, Ne.symm h, h]
    · by_cases hk' : k = key' <;> simp [eraseKey, dictGet, hk, hk', ih, h]

theorem dictGet_eraseKey_none {α : Type} {l : List (String × α)} {key key' : String}
    (h : dictGet l key' = none) : dictGet (eraseKey l key) key' = none := by
  induction l with
  | nil => simpa [eraseKey] using h
  | cons p rest ih =>
    obtain ⟨k, v⟩ := p
    by_cases hk' : k = key'
    · simp [dictGet, hk'] at h
    · simp only [dictGet, if_neg hk'] at h
      by_cases hk : k = key
      · simpa [eraseKey, hk] using h
      · simp [eraseKey, dictGet, hk, hk', ih h]

theorem dictGet_mem {α : Type} {l : List (String × α)} {key : String} {v : α}
    (h : dictGet l key = some v) : (key, v) ∈ l := by
  induction l with
  | nil => simp [dictGet] at h
  | cons p rest ih =>
    obtain ⟨k, w⟩ := p
    by_cases hk : k = key
    · subst hk
      simp [dictGet] at h
      simp [h]
    · simp only [dictGet, if_neg hk] at h
      exact List.mem_cons_of_mem _ (ih h)

theorem dictGet_of_mem_nodup {α : Type} {l : List (String × α)} {p : String × α}
    (hnd : (keys l).Nodup) (h : p ∈ l) : dictGet l p.1 = some p.2 := by
  induction l with
  | nil => simp at h
  | cons q rest ih =>
    obtain ⟨k, v⟩ := q
    simp only [keys_cons, List.nodup_cons] at hnd
    rcases List.mem_cons.1 h with h | h
    · subst h
      simp [dictGet]
    · have hk : k ≠ p.1 := by
        intro hk
        exact hnd.1 (hk ▸ (List.mem_map.2 ⟨p, h, rfl⟩))
      simp [dictGet, hk, ih hnd.2 h]

theorem mem_keys_setKey {α : Type} {l : List (String × α)} {key x : String} {v : α} :
    x ∈ keys (setKey l key v) ↔ x ∈ keys l ∨ x = key := by
  induction l with
  | nil => simp [setKey]
  | cons p rest ih =>
    obtain ⟨k, w⟩ := p
    by_cases hk : k = key
    · subst hk
      simp only [setKey, if_pos rfl, eq_self_iff_true, if_true, keys_cons, List.mem_cons]
      tauto
    · simp only [setKey, if_neg hk, keys_cons, List.mem_cons, ih]
      tauto

theorem keys_setKey_nodup {α : Type} {l : List (String × α)} (key : String) (v : α)
    (h : (keys l).Nodup) : (keys (setKey l key v)).Nodup := by
  induction l with
  | nil => simp [setKey, keys]
  | cons p rest ih =>
    obtain ⟨k, w⟩ := p
    simp only [keys_cons, List.nodup_cons] at h
    by_cases hk : k = key
    · subst hk
      simp only [setKey, if_pos rfl, eq_self_iff_true, if_true, keys_cons, List.nodup_cons]
      exact h
    · simp only [setKey, if_neg hk, keys_cons, List.nodup_cons]
      refine ⟨?_, ih h.2⟩
      intro hmem
      rcases mem_keys_setKey.1 hmem with hmem | hmem
      · exact h.1 hmem
      · exact hk hmem
theorem dictGet_setdefault_of_some {α : Type} {l : List (String × α)} {key : String} {v : α}
    (d : α) (key' : String) (h : dictGet l key = some v) :
    dictGet (setdefault l key' d) key = some v := by
  unfold setdefault
  match hd : dictGet l key' with
  | some _ => exact h
  | none =>
    rw [dictGet_append, h]

theorem dictGet_setdefault_self {α : Type} (l : List (String × α)) (key : String) (d : α) :
    dictGet (setdefault l key d) key =
      match dictGet l key with
      | some v => some v
      | none => some d := by
  unfold setdefault
  match hd : dictGet l key with
  | some v => exact hd
  | none =>
    rw [dictGet_append, hd]
    simp [dictGet]

theorem dictGet_setdefault_ne {α : Type} {l : List (String × α)} {key key' : String}
    (d : α) (h : key' ≠ key) :
    dictGet (setdefault l key d) key' = dictGet l key' := by
  unfold setdefault
  match hd : dictGet l key with
  | some _ => rfl
  | none =>
    rw [dictGet_append]
    match hx : dictGet l key' with
    | some _ => rfl
    | none => simp [dictGet, Ne.symm h]

theorem setdefault_of_isSome {α : Type} {l : List (String × α)} {key : String} (d : α)
    (h : (dictGet l key).isSome) : setdefault l key d = l := by
  unfold setdefault
  match hd : dictGet l key with
  | some _ => rfl
  | none => simp [hd] at h

/-- The backfill loop in `_load_state`: `for model in MODELS: d.setdefault(model, v)`. -/
def backfill {α : Type} (models : List String) (d : α) (l : List (String × α)) :
    List (String × α) :=
  models.foldl (fun acc m => setdefault acc m d) l

theorem dictGet_backfill_of_some {α : Type} {l : List (String × α)} {key : String} {v : α}
    (models : List String) (d : α) (h : dictGet l key = some v) :
    dictGet (backfill models d l) key = some v := by
  induction models generalizing l with
  | nil => exact h
  | cons m rest ih =>
    exact ih (dictGet_setdefault_of_some d m h)

theorem dictGet_backfill_of_none_of_mem {α : Type} {l : List (String × α)} {key : String}
    {models : List String} (d : α) (h : dictGet l key = none) (hm : key ∈ models) :
    dictGet (backfill models d l) key = some d := by
  induction models generalizing l with
  | nil => simp at hm
  | cons m rest ih =>
    rcases List.mem_cons.1 hm with hm | hm
    · subst hm
      have : dictGet (setdefault l key d) key = some d := by
        rw [dictGet_setdefault_self, h]
      exact dictGet_backfill_of_some rest d this
    · by_cases hkm : key = m
      · subst hkm
        have : dictGet (setdefault l key d) key = some d := by
          rw [dictGet_setdefault_self, h]
        exact dictGet_backfill_of_some rest d this
      · exact ih (by rw [dictGet_setdefault_ne d hkm]; exact h) hm

theorem dictGet_backfill_isSome {α : Type} (l : List (String × α)) {key : String}
    {models : List String} (d : α) (hm : key ∈ models) :
    (dictGet (backfill models d l) key).isSome = true := by
  match h : dictGet l key with
  | some v => rw [dictGet_backfill_of_some models d h]; rfl
  | none => rw [dictGet_backfill_of_none_of_mem d h hm]; rfl

theorem dictGet_backfill_of_none_of_not_mem {α : Type} {l : List (String × α)} {key : String}
    {models : List String} (d : α) (h : dictGet l key = none) (hm : key ∉ models) :
    dictGet (backfill models d l) key = none := by
  induction models generalizing l with
  | nil => exact h
  | cons m rest ih =>
    simp only [List.mem_cons, not_or] at hm
    exact ih (by rw [dictGet_setdefault_ne d hm.1]; exact h) hm.2

theorem backfill_eq_self {α : Type} {l : List (String × α)} {models : List String} (d : α)
    (h : ∀ m ∈ models, (dictGet l m).isSome = true) : backfill models d l = l := by
  induction models with
  | nil => rfl
  | cons m rest ih =>
    have h1 : setdefault l m d = l := setdefault_of_isSome d (h m (List.mem_cons_self m rest))
    show backfill rest d (setdefault l m d) = l
    rw [h1]
    exact ih fun m hm => h m (List.mem_cons_of_mem _ hm)

/-! ## The rating store (`EloState`, `_load_state`, `_save_state`) -/

/-- The `EloState` `TypedDict` of `src/app.py`: per-model Elo ratings
(Python floats, embedded as reals), per-model vote counts, and the global
vote counter. -/
structure EloState where
  elos : List (String × ℝ)
  votes : List (String × Int)
  total_votes : Int

/-- Shape of the persisted JSON document, as distinguished by the loader's
`"elos" in stored` test: either the legacy format (the document is the bare
ratings map, which has no `"elos"` wrapper key; the missing-file case is
`legacy []`, since the loader then proceeds with the empty dict) or the
wrapped format written by `_save_state`.  In the wrapped constructor the
`votes` / `total_votes` fields absorb the loader's `.get(..., {})` /
`.get(..., 0)` defaults: a wrapped document missing those keys is
represented by `[]` / `0` directly. -/
inductive StoredDoc where
  | legacy (ratings : List (String × ℝ))
  | wrapped (elos : List (String × ℝ)) (votes : List (String × Int)) (total_votes : Int)

/-- The ratings map the loader extracts from a document before backfill. -/
def StoredDoc.rawElos : StoredDoc → List (String × ℝ)
  | .legacy ratings => ratings
  | .wrapped elos _ _ => elos

/-- The votes map the loader extracts from a document before backfill
(`{}` for a legacy document). -/
def StoredDoc.rawVotes : StoredDoc → List (String × Int)
  | .legacy _ => []
  | .wrapped _ votes _ => votes

/-- The global counter the loader extracts from a document (`0` for a
legacy document). -/
def StoredDoc.rawTotal : StoredDoc → Int
  | .legacy _ => 0
  | .wrapped _ _ total_votes => total_votes

/-- `_load_state`: pick the three components according to the document
shape, then backfill every roster model with the default record
(rating `1500.0`, votes `0`).  `int(total_votes)` is the identity here
because the embedded documents carry integer counters. -/
def load_state (models : List String) (stored : StoredDoc) : EloState :=
  { elos := backfill models (1500 : ℝ) stored.rawElos
    votes := backfill models (0 : Int) stored.rawVotes
    total_votes := stored.rawTotal }

/-- `_save_state`: `json.dump(state, handle)` writes the wrapped document
with keys `elos`, `votes`, `total_votes`. -/
def save_state (state : EloState) : StoredDoc :=
  .wrapped state.elos state.votes state.total_votes
/-! ## Leaderboard derivation (`build_leaderboard`) -/

/-- One leaderboard row, as built by `build_leaderboard`. -/
structure LBEntry where
  rank : Nat
  model : String
  elo : ℝ
  votes : Int

/-- Python `round(score, 1)`: the stored rating rounded to one decimal
place (ties at the half are immaterial to the claims checked here). -/
noncomputable def round1 (x : ℝ) : ℝ :=
  (round (10 * x) : ℤ) / 10

/-- `sorted(elos.items(), key=lambda item: item[1], reverse=True)`: a
stable sort, descending by rating. -/
noncomputable def sortByEloDesc (elos : List (String × ℝ)) : List (String × ℝ) :=
  elos.mergeSort (fun a b => decide (b.2 ≤ a.2))

/-- `build_leaderboard`: enumerate the descending-sorted ratings starting
at rank 1; each row carries the rounded rating for display and the model's
vote count (`votes.get(model, 0)`). -/
noncomputable def build_leaderboard (elos : List (String × ℝ)) (votes : List (String × Int)) :
    List LBEntry :=
  (List.enumFrom 1 (sortByEloDesc elos)).map fun p =>
    { rank := p.1
      model := p.2.1
      elo := round1 p.2.2
      votes := (dictGet votes p.2.1).getD 0 }

/-! ## Rating engine (`elo_update`) -/

/-- `elo_update` from `src/app.py`: both ratings are read before either is
written, both expected scores are computed from those pre-update ratings,
and the two assignments write winner first, loser second.  A missing key
(`KeyError` in Python) yields `none`.  The Python default `k = 32.0` is
passed explicitly by the caller here. -/
noncomputable def elo_update (elos : List (String × ℝ)) (winner loser : String) (k : ℝ) :
    Option (List (String × ℝ)) :=
  match dictGet elos winner, dictGet elos loser with
  | some winner_rating, some loser_rating =>
    let expected_winner := 1 / (1 + (10 : ℝ) ^ ((loser_rating - winner_rating) / 400))
    let expected_loser := 1 / (1 + (10 : ℝ) ^ ((winner_rating - loser_rating) / 400))
    some (setKey (setKey elos winner (winner_rating + k * (1 - expected_winner)))
      loser (loser_rating + k * (0 - expected_loser)))
  | _, _ => none

theorem elo_update_eq {elos : List (String × ℝ)} {winner loser : String} {rw rl : ℝ}
    (k : ℝ) (hw : dictGet elos winner = some rw) (hl : dictGet elos loser = some rl) :
    elo_update elos winner loser k =
      some (setKey
        (setKey elos winner (rw + k * (1 - 1 / (1 + (10 : ℝ) ^ ((rl - rw) / 400)))))
        loser (rl + k * (0 - 1 / (1 + (10 : ℝ) ^ ((rw - rl) / 400))))) := by
  unfold elo_update
  rw [hw, hl]

/-! ## Result recording (`_record_battle_result`, `update_state`) -/

/-- `_record_battle_result`: apply the Elo rule, increment the winner's
vote count (`votes.get(winner, 0) + 1`), increment the global counter, and
rebuild the leaderboard.  `none` models the `KeyError` escaping from
`elo_update`. -/
noncomputable def record_battle_result (state : EloState) (winner loser : String) :
    Option (EloState × List LBEntry) :=
  (elo_update state.elos winner loser 32).map fun elos2 =>
    let votes2 := setKey state.votes winner ((dictGet state.votes winner).getD 0 + 1)
    ({ elos := elos2, votes := votes2, total_votes := state.total_votes + 1 },
      build_leaderboard elos2 votes2)

/-- `update_state`: under the exclusive lock, load the durable document,
run the mutator, and persist the result.  When the mutator raises
(returns `none`) the exception propagates before `_save_state` runs, so
nothing is persisted. -/
noncomputable def update_state {α : Type} (models : List String) (stored : StoredDoc)
    (mutator : EloState → Option (EloState × α)) : Option (StoredDoc × EloState × α) :=
  let state := load_state models stored
  (mutator state).map fun r => (save_state r.1, r.1, r.2)

/-! ## Result submission (`api_battle_result`) -/

/-- A pending comparison in `ACTIVE_BATTLES` (the `"winner": None` field of
the Python dict is never read and is omitted). -/
structure BattlePair where
  model_a : String
  model_b : String
deriving DecidableEq

/-- The Battle Ledger `ACTIVE_BATTLES`, keyed by battle token. -/
abbrev Ledger := List (String × BattlePair)

/-- Outcome of one `api_battle_result` request.  `crash` models an
uncaught exception (a 500, reachable only outside the invariants proved
below); the error constructors are the three 400 responses. -/
inductive SubmitOutcome where
  | missingField
  | unknownToken
  | invalidWinner
  | crash
  | ok (leaderboard : List LBEntry) (total_votes : Int)

/-- Whether the request succeeded. -/
def SubmitOutcome.isOk : SubmitOutcome → Bool
  | .ok _ _ => true
  | _ => false

/-- Result of one `api_battle_result` request: the ledger and durable
document afterwards, plus the response. -/
structure SubmitResult where
  ledger : Ledger
  stored : StoredDoc
  outcome : SubmitOutcome

/-- `api_battle_result`: validate the fields, atomically pop the pending
comparison (`ACTIVE_BATTLES.pop(battle_id, None)`), validate the winner,
compute the loser as the other element of the pair (`{a, b} - {winner}`,
whose `.pop()` raises when the pair is degenerate), and record the result
through `update_state`.  Everything from the pop onwards runs under the
single `lock`, so one request is one atomic step. -/
noncomputable def api_battle_result (models : List String) (ledger : Ledger)
    (stored : StoredDoc) (battle_id winner : String) : SubmitResult :=
  if battle_id = "" ∨ winner = "" then ⟨ledger, stored, .missingField⟩
  else
    match dictGet ledger battle_id with
    | none => ⟨ledger, stored, .unknownToken⟩
    | some battle =>
      let popped := eraseKey ledger battle_id
      if winner = battle.model_a ∨ winner = battle.model_b then
        if battle.model_a = battle.model_b then
          ⟨popped, stored, .crash⟩
        else
          let loser := if winner = battle.model_a then battle.model_b else battle.model_a
          match update_state models stored (fun st => record_battle_result st winner loser) with
          | none => ⟨popped, stored, .crash⟩
          | some (stored2, state2, leaderboard) =>
            ⟨popped, stored2, .ok leaderboard state2.total_votes⟩
      else ⟨popped, stored, .invalidWinner⟩

/-! ## Operation sequences over the shared ledger and durable store -/

/-- One externally visible mutation of the shared state: registering a
fresh pending comparison (the `ACTIVE_BATTLES[battle_id] = ...` line of
`select_battle`, with the drawn pair and generated token as data) or one
`api_battle_result` request. -/
inductive Op where
  | select (battle_id : String) (pair : BattlePair)
  | submit (battle_id winner : String)

/-- Apply one operation; the flag reports whether it was a successful
result submission. -/
noncomputable def runOp (models : List String) (s : Ledger × StoredDoc) (op : Op) :
    (Ledger × StoredDoc) × Bool :=
  match op with
  | .select battle_id pair => ((setKey s.1 battle_id pair, s.2), false)
  | .submit battle_id winner =>
    let r := api_battle_result models s.1 s.2 battle_id winner
    ((r.ledger, r.stored), r.outcome.isOk)

/-- Apply a sequence of operations in order, counting successful
submissions. -/
noncomputable def runOps (models : List String) :
    (Ledger × StoredDoc) → List Op → (Ledger × StoredDoc) × Nat
  | s, [] => (s, 0)
  | s, op :: ops =>
    let step := runOp models s op
    let rest := runOps models step.1 ops
    (rest.1, (if step.2 then 1 else 0) + rest.2)
/-! ## Category index (`_build_category_index`) and matchmaking (`select_battle`) -/

/-- The joke catalog `JOKES`: model → category → list of joke texts. -/
abbrev Catalog := List (String × List (String × List String))

/-- `index.setdefault(category, []).append(model)`: append the model to
the category's entry, creating the entry when absent. -/
def appendEntry (index : List (String × List String)) (category model : String) :
    List (String × List String) :=
  match index with
  | [] => [(category, [model])]
  | (c, ms) :: rest =>
    if c = category then (c, ms ++ [model]) :: rest
    else (c, ms) :: appendEntry rest category model

/-- The body of the outer loop of `_build_category_index`: iterate over
`JOKES.get(model, {}).items()` and record the model under each category
with a nonempty joke list. -/
def indexInsert (jokes : Catalog) (model : String) (index : List (String × List String)) :
    List (String × List String) :=
  ((dictGet jokes model).getD []).foldl
    (fun index2 cj => if cj.2.isEmpty then index2 else appendEntry index2 cj.1 model)
    index

/-- `_build_category_index`: for each roster model and each of its
categories with a nonempty joke list, append the model to that category's
entry; keep only categories with at least two models. -/
def build_category_index (models : List String) (jokes : Catalog) :
    List (String × List String) :=
  (models.foldl (fun index model => indexInsert jokes model index) []).filter
    fun e => decide (2 ≤ e.2.length)

/-- Whether a category map holds a nonempty joke list for a category. -/
def cmHasPool (cm : List (String × List String)) (category : String) : Bool :=
  match dictGet cm category with
  | some pool => !pool.isEmpty
  | none => false

/-- Whether `JOKES.get(model, {})` holds a nonempty joke list for a
category — the condition under which `_build_category_index` records the
model for that category. -/
def hasPool (jokes : Catalog) (model category : String) : Bool :=
  cmHasPool ((dictGet jokes model).getD []) category

/-- One contestant of a returned battle; `rank` is `none` for the `"-"`
sentinel. -/
structure Contestant where
  id : String
  joke : String
  rank : Option Nat

/-- The response of `select_battle`. -/
structure BattleResponse where
  battle_id : String
  category : String
  contestants : List Contestant

/-- How `select_battle` can fail: the explicit `RuntimeError` when the
category index is empty, or an uncaught lookup error (`KeyError` /
empty-population `random.choice`), which the invariants below prove
unreachable. -/
inductive SelectError where
  | noEligibleCategory
  | missingJokes

/-- The random draws of one `select_battle` call, made explicit.
`random.choice(xs)` is modeled as `xs[i % len(xs)]` for the given index
`i`, and `random.sample(entry, 2)` as the positions `first % n` and
`(first % n + 1 + second % (n-1)) % n`, which are distinct whenever
`n ≥ 2` and range over every ordered pair of distinct positions as
`first` and `second` range over the naturals. -/
structure Choices where
  cat : Nat
  first : Nat
  second : Nat
  jokeA : Nat
  jokeB : Nat

/-- The body of `select_battle` after its emptiness guard, applied to the
(nonempty) category index: read the store, derive ranks, draw a category,
two distinct members of its entry, and one joke for each from
`JOKES[model][category]`, register the pending comparison under the fresh
token `battle_id`, and return the response.  The model-rank map built
from the leaderboard is keyed by model; `find?` returns its first
matching row. -/
noncomputable def select_from (models : List String) (jokes : Catalog) (stored : StoredDoc)
    (battle_id : String) (ch : Choices) (ledger : Ledger)
    (c0 : String × List String) (rest : List (String × List String)) :
    Except SelectError (Ledger × BattleResponse) :=
  let index := c0 :: rest
  let state := load_state models stored
    let leaderboard := build_leaderboard state.elos state.votes
    let rank_lookup := fun m => (leaderboard.find? fun e => e.model == m).map LBEntry.rank
    let chosen := index.getD (ch.cat % index.length) c0
    let category := chosen.1
    let entry := chosen.2
    match entry with
    | [] => .error .missingJokes
    | m0 :: _ =>
      let n := entry.length
      let i := ch.first % n
      let j := (i + 1 + ch.second % (n - 1)) % n
      let model_a := entry.getD i m0
      let model_b := entry.getD j m0
      match (dictGet jokes model_a).bind (fun cm => dictGet cm category),
          (dictGet jokes model_b).bind (fun cm => dictGet cm category) with
      | some poolA, some poolB =>
        match poolA.get? (ch.jokeA % poolA.length), poolB.get? (ch.jokeB % poolB.length) with
        | some jokeA, some jokeB =>
          .ok (setKey ledger battle_id { model_a := model_a, model_b := model_b },
            { battle_id := battle_id
              category := category
              contestants :=
                [{ id := model_a, joke := jokeA, rank := rank_lookup model_a },
                  { id := model_b, joke := jokeB, rank := rank_lookup model_b }] })
        | _, _ => .error .missingJokes
      | _, _ => .error .missingJokes

/-- `select_battle`: raise (`RuntimeError`) when the category index is
empty, otherwise run the drawing body `select_from` on it. -/
noncomputable def select_battle (models : List String) (jokes : Catalog) (stored : StoredDoc)
    (battle_id : String) (ch : Choices) (ledger : Ledger) :
    Except SelectError (Ledger × BattleResponse) :=
  match build_category_index models jokes with
  | [] => .error .noEligibleCategory
  | c0 :: rest => select_from models jokes stored battle_id ch ledger c0 rest

theorem dictGet_appendEntry_self (index : List (String × List String)) (c m : String) :
    dictGet (appendEntry index c m) c = some ((dictGet index c).getD [] ++ [m]) := by
  induction index with
  | nil => simp [appendEntry, dictGet]
  | cons p rest ih =>
    obtain ⟨k, ms⟩ := p
    by_cases hk : k = c
    · subst hk
      simp [appendEntry, dictGet]
    · simp [appendEntry, dictGet, hk, ih]

theorem dictGet_appendEntry_ne (index : List (String × List String)) {c c' : String} (m : String)
    (h : c' ≠ c) : dictGet (appendEntry index c m) c' = dictGet index c' := by
  induction index with
  | nil => simp [appendEntry, dictGet, Ne.symm h]
  | cons p rest ih =>
    obtain ⟨k, ms⟩ := p
    by_cases hk : k = c
    · subst hk
      simp [appendEntry, dictGet, Ne.symm h, h]
    · by_cases hk' : k = c' <;> simp [appendEntry, dictGet, hk, hk', ih, h]

theorem mem_keys_appendEntry {index : List (String × List String)} {c m x : String} :
    x ∈ keys (appendEntry index c m) ↔ x ∈ keys index ∨ x = c := by
  induction index with
  | nil => simp [appendEntry]
  | cons p rest ih =>
    obtain ⟨k, ms⟩ := p
    by_cases hk : k = c
    · subst hk
      simp only [appendEntry, if_pos rfl, eq_self_iff_true, if_true, keys_cons, List.mem_cons]
      tauto
    · simp only [appendEntry, if_neg hk, keys_cons, List.mem_cons, ih]
      tauto

theorem keys_appendEntry_nodup {index : List (String × List String)} (c m : String)
    (h : (keys index).Nodup) : (keys (appendEntry index c m)).Nodup := by
  induction index with
  | nil => simp [appendEntry, keys]
  | cons p rest ih =>
    obtain ⟨k, ms⟩ := p
    simp only [keys_cons, List.nodup_cons] at h
    by_cases hk : k = c
    · subst hk
      simp only [appendEntry, if_pos rfl, eq_self_iff_true, if_true, keys_cons,
        List.nodup_cons]
      exact h
    · simp only [appendEntry, if_neg hk, keys_cons, List.nodup_cons]
      refine ⟨?_, ih h.2⟩
      intro hmem
      rcases mem_keys_appendEntry.1 hmem with hmem | hmem
      · exact h.1 hmem
      · exact hk hmem

theorem foldl_appendEntry_dictGet {model : String} {cm : List (String × List String)}
    (hnd : (keys cm).Nodup) :
    ∀ (index : List (String × List String)) (c : String),
      dictGet
          (cm.foldl
            (fun index2 cj => if cj.2.isEmpty then index2 else appendEntry index2 cj.1 model)
            index)
          c =
        if cmHasPool cm c then some ((dictGet index c).getD [] ++ [model])
        else dictGet index c := by
  induction cm with
  | nil =>
    intro index c
    simp [cmHasPool, dictGet]
  | cons cj rest ih =>
    obtain ⟨c', pool⟩ := cj
    simp only [keys_cons, List.nodup_cons] at hnd
    intro index c
    by_cases hc : c' = c
    · subst hc
      have hrest : cmHasPool rest c' = false := by
        unfold cmHasPool
        rw [dictGet_eq_none_of_not_mem_keys hnd.1]
      by_cases hpool : pool.isEmpty
      · have hcm : cmHasPool ((c', pool) :: rest) c' = false := by
          unfold cmHasPool
          simp [dictGet, hpool]
        rw [hcm]
        simp only [List.foldl_cons, if_pos hpool]
        rw [ih hnd.2 index c', hrest]
      · have hcm : cmHasPool ((c', pool) :: rest) c' = true := by
          unfold cmHasPool
          simp [dictGet, hpool]
        rw [hcm]
        simp only [List.foldl_cons, if_neg hpool]
        rw [ih hnd.2 (appendEntry index c' model) c', hrest]
        simp [dictGet_appendEntry_self]
    · have heq : cmHasPool ((c', pool) :: rest) c = cmHasPool rest c := by
        unfold cmHasPool
        simp [dictGet, hc]
      rw [heq]
      by_cases hpool : pool.isEmpty
      · simp only [List.foldl_cons, if_pos hpool]
        exact ih hnd.2 index c
      · simp only [List.foldl_cons, if_neg hpool]
        rw [ih hnd.2 (appendEntry index c' model) c]
        rw [dictGet_appendEntry_ne index model (Ne.symm hc)]

theorem dictGet_indexInsert_of_nodup {jokes : Catalog} {model : String}
    (hnd : (keys ((dictGet jokes model).getD [])).Nodup)
    (index : List (String × List String)) (c : String) :
    dictGet (indexInsert jokes model index) c =
      if hasPool jokes model c then some ((dictGet index c).getD [] ++ [model])
      else dictGet index c :=
  foldl_appendEntry_dictGet hnd index c

theorem keys_indexInsert_nodup {jokes : Catalog} (model : String)
    {index : List (String × List String)} (h : (keys index).Nodup) :
    (keys (indexInsert jokes model index)).Nodup := by
  unfold indexInsert
  generalize (dictGet jokes model).getD [] = cm
  induction cm generalizing index with
  | nil => exact h
  | cons cj rest ih =>
    obtain ⟨c', pool⟩ := cj
    by_cases hpool : pool.isEmpty
    · simp only [List.foldl_cons, if_pos hpool]
      exact ih h
    · simp only [List.foldl_cons, if_neg hpool]
      exact ih (keys_appendEntry_nodup c' model h)
theorem catmap_keys_nodup {jokes : Catalog} (HJ : ∀ p ∈ jokes, (keys p.2).Nodup)
    (model : String) : (keys ((dictGet jokes model).getD [])).Nodup := by
  match h : dictGet jokes model with
  | none => simp
  | some cm =>
    simpa using HJ (model, cm) (dictGet_mem h)

theorem foldl_indexInsert_dictGet_some {jokes : Catalog}
    (HJ : ∀ p ∈ jokes, (keys p.2).Nodup) (ms : List String) :
    ∀ (index : List (String × List String)) (c : String) (e : List String),
      dictGet index c = some e →
      dictGet (ms.foldl (fun index model => indexInsert jokes model index) index) c =
        some (e ++ ms.filter fun m => hasPool jokes m c) := by
  induction ms with
  | nil =>
    intro index c e h
    simpa using h
  | cons m rest ih =>
    intro index c e h
    have hstep := dictGet_indexInsert_of_nodup (catmap_keys_nodup HJ m) index c
    by_cases hp : hasPool jokes m c
    · rw [if_pos hp] at hstep
      rw [h] at hstep
      have := ih (indexInsert jokes m index) c (e ++ [m]) (by simpa using hstep)
      rw [List.foldl_cons, this, List.filter_cons, if_pos (by simpa using hp)]
      simp
    · rw [if_neg hp, h] at hstep
      have := ih (indexInsert jokes m index) c e hstep
      rw [List.foldl_cons, this, List.filter_cons, if_neg (by simpa using hp)]

theorem foldl_indexInsert_dictGet_none {jokes : Catalog}
    (HJ : ∀ p ∈ jokes, (keys p.2).Nodup) (ms : List String) :
    ∀ (index : List (String × List String)) (c : String),
      dictGet index c = none →
      dictGet (ms.foldl (fun index model => indexInsert jokes model index) index) c =
        if (ms.filter fun m => hasPool jokes m c).isEmpty then none
        else some (ms.filter fun m => hasPool jokes m c) := by
  induction ms with
  | nil =>
    intro index c h
    simpa using h
  | cons m rest ih =>
    intro index c h
    have hstep := dictGet_indexInsert_of_nodup (catmap_keys_nodup HJ m) index c
    by_cases hp : hasPool jokes m c
    · rw [if_pos hp, h] at hstep
      have := foldl_indexInsert_dictGet_some HJ rest (indexInsert jokes m index) c [m]
        (by simpa using hstep)
      rw [List.foldl_cons, this]
      simp [List.filter_cons, hp]
    · rw [if_neg hp, h] at hstep
      have := ih (indexInsert jokes m index) c hstep
      rw [List.foldl_cons, this]
      simp [List.filter_cons, hp]

theorem foldl_indexInsert_keys_nodup {jokes : Catalog} (ms : List String) :
    ∀ {index : List (String × List String)}, (keys index).Nodup →
      (keys (ms.foldl (fun index model => indexInsert jokes model index) index)).Nodup := by
  induction ms with
  | nil => exact fun h => h
  | cons m rest ih =>
    intro index h
    exact ih (keys_indexInsert_nodup m h)

/-- Characterization of the category index: with well-formed (unique-key)
category maps, every retained entry has at least two models and is exactly
the sublist of roster models with a nonempty joke pool for that category,
in roster order. -/
theorem build_category_index_entry {models : List String} {jokes : Catalog}
    (HJ : ∀ p ∈ jokes, (keys p.2).Nodup) {pr : String × List String}
    (h : pr ∈ build_category_index models jokes) :
    2 ≤ pr.2.length ∧ pr.2 = models.filter fun m => hasPool jokes m pr.1 := by
  unfold build_category_index at h
  have hmem := (List.mem_filter.1 h).1
  have hlen : 2 ≤ pr.2.length := by
    have := (List.mem_filter.1 h).2
    simpa using this
  refine ⟨hlen, ?_⟩
  have hnd : (keys (models.foldl (fun index model => indexInsert jokes model index) [])).Nodup :=
    foldl_indexInsert_keys_nodup models (by simp)
  have hget := dictGet_of_mem_nodup hnd hmem
  rw [foldl_indexInsert_dictGet_none HJ models [] pr.1 rfl] at hget
  by_cases he : (models.filter fun m => hasPool jokes m pr.1).isEmpty
  · rw [if_pos he] at hget
    cases hget
  · rw [if_neg he] at hget
    exact (Option.some.injEq _ _ ▸ hget).symm

/-- Every model in a category-index entry is a roster model with a
nonempty joke pool for that category. -/
theorem mem_category_index_entry {models : List String} {jokes : Catalog}
    (HJ : ∀ p ∈ jokes, (keys p.2).Nodup) {pr : String × List String}
    (h : pr ∈ build_category_index models jokes) {m : String} (hm : m ∈ pr.2) :
    m ∈ models ∧ ∃ cm pool, dictGet jokes m = some cm ∧ dictGet cm pr.1 = some pool ∧
      pool ≠ [] := by
  obtain ⟨-, hchar⟩ := build_category_index_entry HJ h
  rw [hchar] at hm
  have hmem := List.mem_filter.1 hm
  refine ⟨hmem.1, ?_⟩
  have hp : hasPool jokes m pr.1 = true := by simpa using hmem.2
  unfold hasPool cmHasPool at hp
  match hj : dictGet jokes m with
  | none => rw [hj] at hp; simp [dictGet] at hp
  | some cm =>
    rw [hj] at hp
    simp only [Option.getD_some] at hp
    match hc : dictGet cm pr.1 with
    | none => rw [hc] at hp; simp at hp
    | some pool =>
      rw [hc] at hp
      refine ⟨cm, pool, rfl, hc, ?_⟩
      intro hnil
      rw [hnil] at hp
      simp at hp
theorem mod_shift_ne {i s n : Nat} (h2 : 2 ≤ n) (hi : i < n) (hs : s < n - 1) :
    (i + 1 + s) % n ≠ i := by
  intro heq
  have hlt : 1 + s < n := by omega
  have hmod : (i + (1 + s)) % n = i % n := by
    have has : i + (1 + s) = i + 1 + s := by omega
    rw [has, heq, Nat.mod_eq_of_lt hi]
  have hdvd : n ∣ i + (1 + s) - i :=
    (Nat.modEq_iff_dvd' (Nat.le_add_right i (1 + s))).1 hmod.symm
  rw [Nat.add_sub_cancel_left] at hdvd
  have := Nat.le_of_dvd (by omega) hdvd
  omega

/-- Forward characterization of `select_battle` on a nonempty category
index: it succeeds, the drawn pair lies in the entry of the returned
category, the two positions drawn are distinct (so the models are distinct
whenever the roster has no duplicates), and each joke is drawn from that
model's pool for the category. -/
theorem select_from_ok {models : List String} {jokes : Catalog} (stored : StoredDoc)
    (battle_id : String) (ch : Choices) (ledger : Ledger)
    (HJ : ∀ p ∈ jokes, (keys p.2).Nodup)
    (c0 : String × List String) (rest : List (String × List String))
    (hci : build_category_index models jokes = c0 :: rest) :
    ∃ (category : String) (entry : List String) (a b jA jB : String) (ra rb : Option Nat),
      (category, entry) ∈ build_category_index models jokes ∧
      2 ≤ entry.length ∧ a ∈ entry ∧ b ∈ entry ∧
      (models.Nodup → a ≠ b) ∧
      (∃ cm pool, dictGet jokes a = some cm ∧ dictGet cm category = some pool ∧ jA ∈ pool) ∧
      (∃ cm pool, dictGet jokes b = some cm ∧ dictGet cm category = some pool ∧ jB ∈ pool) ∧
      select_battle models jokes stored battle_id ch ledger =
        .ok (setKey ledger battle_id { model_a := a, model_b := b },
          { battle_id := battle_id
            category := category
            contestants := [{ id := a, joke := jA, rank := ra }, { id := b, joke := jB, rank := rb }] }) := by
  have hsel : select_battle models jokes stored battle_id ch ledger =
      select_from models jokes stored battle_id ch ledger c0 rest := by
    unfold select_battle
    rw [hci]
  have hlen0 : 0 < (c0 :: rest).length := by simp
  have hic : ch.cat % (c0 :: rest).length < (c0 :: rest).length := Nat.mod_lt _ hlen0
  have hchosen_mem : (c0 :: rest).getD (ch.cat % (c0 :: rest).length) c0 ∈
      build_category_index models jokes := by
    rw [hci, List.getD_eq_getElem _ c0 hic]
    exact List.getElem_mem hic
  rw [hsel]
  simp only [select_from]
  generalize hch : (c0 :: rest).getD (ch.cat % (c0 :: rest).length) c0 = chosen
    at hchosen_mem ⊢
  obtain ⟨category, entry⟩ := chosen
  obtain ⟨hlen2, hchar⟩ := build_category_index_entry HJ hchosen_mem
  simp only at hlen2 hchar ⊢
  obtain ⟨m0, tail, hE⟩ : ∃ m0 t, entry = m0 :: t := by
    cases entry with
    | nil => simp at hlen2
    | cons x t => exact ⟨x, t, rfl⟩
  subst hE
  simp only []
  have hn0 : 0 < (m0 :: tail).length := by simp
  have hiA : ch.first % (m0 :: tail).length < (m0 :: tail).length := Nat.mod_lt _ hn0
  have hiB : (ch.first % (m0 :: tail).length + 1 +
      ch.second % ((m0 :: tail).length - 1)) % (m0 :: tail).length < (m0 :: tail).length :=
    Nat.mod_lt _ hn0
  have hne_idx : (ch.first % (m0 :: tail).length + 1 +
      ch.second % ((m0 :: tail).length - 1)) % (m0 :: tail).length ≠
      ch.first % (m0 :: tail).length := by
    refine mod_shift_ne hlen2 hiA ?_
    exact Nat.mod_lt _ (by omega)
  have hnodup : models.Nodup → ((m0 :: tail).getD (ch.first % (m0 :: tail).length) m0 ≠
      (m0 :: tail).getD ((ch.first % (m0 :: tail).length + 1 +
        ch.second % ((m0 :: tail).length - 1)) % (m0 :: tail).length) m0) := by
    intro hnd
    have hend : (m0 :: tail).Nodup := by
      rw [hchar]
      exact hnd.filter _
    rw [List.getD_eq_getElem _ m0 hiA, List.getD_eq_getElem _ m0 hiB]
    intro he
    exact hne_idx (hend.getElem_inj_iff.mp he.symm)
  have hmemA : (m0 :: tail).getD (ch.first % (m0 :: tail).length) m0 ∈ m0 :: tail := by
    rw [List.getD_eq_getElem _ m0 hiA]
    exact List.getElem_mem hiA
  have hmemB : (m0 :: tail).getD ((ch.first % (m0 :: tail).length + 1 +
      ch.second % ((m0 :: tail).length - 1)) % (m0 :: tail).length) m0 ∈ m0 :: tail := by
    rw [List.getD_eq_getElem _ m0 hiB]
    exact List.getElem_mem hiB
  obtain ⟨-, cmA, poolA, hjA, hpA, hpA0⟩ := mem_category_index_entry HJ hchosen_mem hmemA
  obtain ⟨-, cmB, poolB, hjB, hpB, hpB0⟩ := mem_category_index_entry HJ hchosen_mem hmemB
  have hlA : ch.jokeA % poolA.length < poolA.length :=
    Nat.mod_lt _ (List.length_pos.2 hpA0)
  have hlB : ch.jokeB % poolB.length < poolB.length :=
    Nat.mod_lt _ (List.length_pos.2 hpB0)
  have hgA : poolA.get? (ch.jokeA % poolA.length) = some poolA[ch.jokeA % poolA.length] := by
    simp [List.get?_eq_getElem?, List.getElem?_eq_getElem hlA]
  have hgB : poolB.get? (ch.jokeB % poolB.length) = some poolB[ch.jokeB % poolB.length] := by
    simp [List.get?_eq_getElem?, List.getElem?_eq_getElem hlB]
  simp only at hpA hpB
  refine ⟨category, m0 :: tail,
    (m0 :: tail).getD (ch.first % (m0 :: tail).length) m0,
    (m0 :: tail).getD ((ch.first % (m0 :: tail).length + 1 +
      ch.second % ((m0 :: tail).length - 1)) % (m0 :: tail).length) m0,
    poolA[ch.jokeA % poolA.length], poolB[ch.jokeB % poolB.length],
    (((build_leaderboard (load_state models stored).elos
          (load_state models stored).votes).find?
        fun e => e.model == (m0 :: tail).getD (ch.first % (m0 :: tail).length) m0).map
      LBEntry.rank),
    (((build_leaderboard (load_state models stored).elos
          (load_state models stored).votes).find?
        fun e => e.model == (m0 :: tail).getD ((ch.first % (m0 :: tail).length + 1 +
          ch.second % ((m0 :: tail).length - 1)) % (m0 :: tail).length) m0).map
      LBEntry.rank),
    hchosen_mem, hlen2, hmemA, hmemB, hnodup,
    ⟨cmA, poolA, hjA, hpA, List.getElem_mem hlA⟩,
    ⟨cmB, poolB, hjB, hpB, List.getElem_mem hlB⟩, ?_⟩
  rw [hjA, hjB]
  simp only [Option.some_bind]
  rw [hpA, hpB]
  simp only [hgA, hgB]
@[simp] theorem rawTotal_save_state (state : EloState) :
    (save_state state).rawTotal = state.total_votes := rfl

@[simp] theorem total_votes_load_state (models : List String) (stored : StoredDoc) :
    (load_state models stored).total_votes = stored.rawTotal := rfl

theorem update_state_record_some {models : List String} {stored : StoredDoc}
    {w l : String} {stored2 : StoredDoc} {state2 : EloState} {lb : List LBEntry}
    (h : update_state models stored (fun st => record_battle_result st w l) =
      some (stored2, state2, lb)) :
    ∃ elos2, elo_update (load_state models stored).elos w l 32 = some elos2 ∧
      state2 = { elos := elos2
                 votes := setKey (load_state models stored).votes w
                   ((dictGet (load_state models stored).votes w).getD 0 + 1)
                 total_votes := (load_state models stored).total_votes + 1 } ∧
      stored2 = save_state state2 ∧
      lb = build_leaderboard state2.elos state2.votes := by
  have h2 : Option.map (fun r : EloState × List LBEntry => (save_state r.1, r.1, r.2))
      (Option.map
        (fun elos2 =>
          ({ elos := elos2
             votes := setKey (load_state models stored).votes w
               ((dictGet (load_state models stored).votes w).getD 0 + 1)
             total_votes := (load_state models stored).total_votes + 1 }
           , build_leaderboard elos2 (setKey (load_state models stored).votes w
               ((dictGet (load_state models stored).votes w).getD 0 + 1))))
        (elo_update (load_state models stored).elos w l 32)) = some (stored2, state2, lb) := h
  match he : elo_update (load_state models stored).elos w l 32 with
  | none => rw [he] at h2; simp at h2
  | some elos2 =>
    rw [he] at h2
    simp only [Option.map_some', Option.some.injEq, Prod.mk.injEq] at h2
    obtain ⟨h1, hst, hlb⟩ := h2
    refine ⟨elos2, rfl, hst.symm, ?_, ?_⟩
    · rw [← h1, ← hst]
    · rw [← hlb, ← hst]
/-- Full characterization of a successful result submission: under the
guards actually checked by the handler (nonempty fields, a pending battle
for the token, a winner from the pair, a nondegenerate pair) and with both
contestants present in the loaded ratings map, the call pops the token,
persists the Elo-updated document with the winner's votes and the global
counter incremented, and returns the rebuilt leaderboard. -/
theorem api_ok_characterization {models : List String} {ledger : Ledger} {stored : StoredDoc}
    {battle_id winner loser : String} {pair : BattlePair} {rw0 rl0 : ℝ}
    (hb : battle_id ≠ "") (hw : winner ≠ "")
    (hpair : dictGet ledger battle_id = some pair)
    (hwin : winner = pair.model_a ∨ winner = pair.model_b)
    (hab : pair.model_a ≠ pair.model_b)
    (hloser : loser = if winner = pair.model_a then pair.model_b else pair.model_a)
    (hrw : dictGet (load_state models stored).elos winner = some rw0)
    (hrl : dictGet (load_state models stored).elos loser = some rl0) :
    api_battle_result models ledger stored battle_id winner =
      { ledger := eraseKey ledger battle_id
        stored := StoredDoc.wrapped
          (setKey (setKey (load_state models stored).elos winner
              (rw0 + 32 * (1 - 1 / (1 + (10 : ℝ) ^ ((rl0 - rw0) / 400)))))
            loser (rl0 + 32 * (0 - 1 / (1 + (10 : ℝ) ^ ((rw0 - rl0) / 400)))))
          (setKey (load_state models stored).votes winner
            ((dictGet (load_state models stored).votes winner).getD 0 + 1))
          ((load_state models stored).total_votes + 1)
        outcome := .ok
          (build_leaderboard
            (setKey (setKey (load_state models stored).elos winner
                (rw0 + 32 * (1 - 1 / (1 + (10 : ℝ) ^ ((rl0 - rw0) / 400)))))
              loser (rl0 + 32 * (0 - 1 / (1 + (10 : ℝ) ^ ((rw0 - rl0) / 400)))))
            (setKey (load_state models stored).votes winner
              ((dictGet (load_state models stored).votes winner).getD 0 + 1)))
          ((load_state models stored).total_votes + 1) } := by
  have hf : ¬(battle_id = "" ∨ winner = "") := by
    push_neg
    exact ⟨hb, hw⟩
  have he := elo_update_eq 32 hrw hrl
  subst hloser
  simp only [api_battle_result, if_neg hf, hpair, if_pos hwin, if_neg hab, update_state,
    record_battle_result, he, Option.map_some', save_state]
/-- Submitting a winner outside the recorded pair: the error is returned,
the durable document is untouched, but the token has already been popped. -/
theorem api_invalid_winner_characterization {models : List String} {ledger : Ledger}
    {stored : StoredDoc} {battle_id winner : String} {pair : BattlePair}
    (hb : battle_id ≠ "") (hw : winner ≠ "")
    (hpair : dictGet ledger battle_id = some pair)
    (hna : winner ≠ pair.model_a) (hnb : winner ≠ pair.model_b) :
    api_battle_result models ledger stored battle_id winner =
      { ledger := eraseKey ledger battle_id
        stored := stored
        outcome := .invalidWinner } := by
  have hf : ¬(battle_id = "" ∨ winner = "") := by
    push_neg
    exact ⟨hb, hw⟩
  have hnot : ¬(winner = pair.model_a ∨ winner = pair.model_b) := by
    push_neg
    exact ⟨hna, hnb⟩
  simp only [api_battle_result, if_neg hf, hpair, if_neg hnot]

/-- `api_battle_result` never inserts a ledger entry: an absent token stays
absent. -/
theorem api_ledger_none {models : List String} {ledger : Ledger} {stored : StoredDoc}
    {battle_id winner x : String} (h : dictGet ledger x = none) :
    dictGet (api_battle_result models ledger stored battle_id winner).ledger x = none := by
  by_cases hf : battle_id = "" ∨ winner = ""
  · simpa [api_battle_result, if_pos hf] using h
  · match hb : dictGet ledger battle_id with
    | none => simpa [api_battle_result, if_neg hf, hb] using h
    | some pair =>
      by_cases hwin : winner = pair.model_a ∨ winner = pair.model_b
      · by_cases hab : pair.model_a = pair.model_b
        · simpa [api_battle_result, if_neg hf, hb, if_pos hwin, if_pos hab] using
            dictGet_eraseKey_none h
        · match hu : update_state models stored (fun st => record_battle_result st winner
              (if winner = pair.model_a then pair.model_b else pair.model_a)) with
          | none =>
            simpa [api_battle_result, if_neg hf, hb, if_pos hwin, if_neg hab, hu] using
              dictGet_eraseKey_none h
          | some r =>
            obtain ⟨stored2, state2, lb⟩ := r
            simpa [api_battle_result, if_neg hf, hb, if_pos hwin, if_neg hab, hu] using
              dictGet_eraseKey_none h
      · simpa [api_battle_result, if_neg hf, hb, if_neg hwin] using dictGet_eraseKey_none h

/-- A successful submission implies nonempty fields and has popped exactly
the submitted token from the ledger. -/
theorem api_ok_ledger (models : List String) (ledger : Ledger) (stored : StoredDoc)
    (battle_id winner : String) :
    (api_battle_result models ledger stored battle_id winner).outcome.isOk = true →
      battle_id ≠ "" ∧
      (api_battle_result models ledger stored battle_id winner).ledger =
        eraseKey ledger battle_id := by
  by_cases hf : battle_id = "" ∨ winner = ""
  · intro h
    simp [api_battle_result, if_pos hf, SubmitOutcome.isOk] at h
  · match hb : dictGet ledger battle_id with
    | none =>
      intro h
      simp [api_battle_result, if_neg hf, hb, SubmitOutcome.isOk] at h
    | some pair =>
      by_cases hwin : winner = pair.model_a ∨ winner = pair.model_b
      · by_cases hab : pair.model_a = pair.model_b
        · intro h
          simp [api_battle_result, if_neg hf, hb, if_pos hwin, if_pos hab,
            SubmitOutcome.isOk] at h
        · match hu : update_state models stored (fun st => record_battle_result st winner
              (if winner = pair.model_a then pair.model_b else pair.model_a)) with
          | none =>
            intro h
            simp [api_battle_result, if_neg hf, hb, if_pos hwin, if_neg hab, hu,
              SubmitOutcome.isOk] at h
          | some r =>
            intro _
            have hf2 : ¬ battle_id = "" ∧ ¬ winner = "" := by
              push_neg at hf
              exact hf
            refine ⟨hf2.1, ?_⟩
            obtain ⟨stored2, state2, lb⟩ := r
            simp [api_battle_result, if_neg hf, hb, if_pos hwin, if_neg hab, hu]
      · intro h
        simp [api_battle_result, if_neg hf, hb, if_neg hwin, SubmitOutcome.isOk] at h

/-- Effect of one submission on the persisted global counter: incremented
by one exactly when the call succeeds. -/
theorem api_stored_rawTotal (models : List String) (ledger : Ledger) (stored : StoredDoc)
    (battle_id winner : String) :
    (api_battle_result models ledger stored battle_id winner).stored.rawTotal =
      stored.rawTotal +
        (if (api_battle_result models ledger stored battle_id winner).outcome.isOk then 1
          else 0) := by
  by_cases hf : battle_id = "" ∨ winner = ""
  · simp [api_battle_result, if_pos hf, SubmitOutcome.isOk]
  · match hb : dictGet ledger battle_id with
    | none => simp [api_battle_result, if_neg hf, hb, SubmitOutcome.isOk]
    | some pair =>
      by_cases hwin : winner = pair.model_a ∨ winner = pair.model_b
      · by_cases hab : pair.model_a = pair.model_b
        · simp [api_battle_result, if_neg hf, hb, if_pos hwin, if_pos hab, SubmitOutcome.isOk]
        · match hu : update_state models stored (fun st => record_battle_result st winner
              (if winner = pair.model_a then pair.model_b else pair.model_a)) with
          | none =>
            simp [api_battle_result, if_neg hf, hb, if_pos hwin, if_neg hab, hu,
              SubmitOutcome.isOk]
          | some r =>
            obtain ⟨stored2, state2, lb⟩ := r
            obtain ⟨elos2, -, hst, hsd, -⟩ := update_state_record_some hu
            subst hsd
            simp [api_battle_result, if_neg hf, hb, if_pos hwin, if_neg hab, hu,
              SubmitOutcome.isOk, hst]
      · simp [api_battle_result, if_neg hf, hb, if_neg hwin, SubmitOutcome.isOk]
/-- A token absent from the ledger stays absent under any operation
sequence that never registers that token again (fresh-token assumption for
`select`; `submit` only ever pops). -/
theorem runOps_token_none {models : List String} {bid : String} :
    ∀ (ops : List Op) (s : Ledger × StoredDoc), dictGet s.1 bid = none →
      (∀ pair, Op.select bid pair ∉ ops) →
      dictGet (runOps models s ops).1.1 bid = none := by
  intro ops
  induction ops with
  | nil => exact fun s h _ => h
  | cons op ops ih =>
    intro s h hfresh
    match op with
    | .select bid2 pair =>
      have hne : bid ≠ bid2 := by
        intro he
        exact hfresh pair (by rw [he]; exact List.mem_cons_self _ _)
      refine ih _ ?_ fun pair hp => hfresh pair (List.mem_cons_of_mem _ hp)
      show dictGet (setKey s.1 bid2 pair) bid = none
      rw [dictGet_setKey_ne _ pair hne]
      exact h
    | .submit bid2 w2 =>
      exact ih _ (api_ledger_none h) fun pair hp => hfresh pair (List.mem_cons_of_mem _ hp)

/-- The persisted global counter after a sequence of operations is the
starting counter plus the number of successful submissions. -/
theorem runOps_rawTotal {models : List String} :
    ∀ (ops : List Op) (s : Ledger × StoredDoc),
      (runOps models s ops).1.2.rawTotal =
        s.2.rawTotal + ((runOps models s ops).2 : ℤ) := by
  intro ops
  induction ops with
  | nil => intro s; simp [runOps]
  | cons op ops ih =>
    intro s
    match op with
    | .select bid2 pair =>
      show (runOps models (setKey s.1 bid2 pair, s.2) ops).1.2.rawTotal =
        s.2.rawTotal + ((0 : Nat) + (runOps models (setKey s.1 bid2 pair, s.2) ops).2 : ℤ)
      rw [ih]
      norm_num
    | .submit bid2 w2 =>
      have hstep := api_stored_rawTotal models s.1 s.2 bid2 w2
      show (runOps models ((api_battle_result models s.1 s.2 bid2 w2).ledger,
          (api_battle_result models s.1 s.2 bid2 w2).stored) ops).1.2.rawTotal = _
      rw [ih]
      simp only [runOps, runOp]
      rw [hstep]
      by_cases hok : (api_battle_result models s.1 s.2 bid2 w2).outcome.isOk
      · simp [hok]
        ring
      · simp [hok]
/-! ## Claim theorems -/

/-- C3: the Elo update computes both expected scores from the pre-update
ratings and sets the winner's rating to `rw + k*(1 - expectedWinner)` and
the loser's to `rl + k*(0 - expectedLoser)` with the logistic expected
scores, leaving every other rating unchanged; in particular from ratings
(1500, 1500) with k = 32 the winner moves to exactly 1516 and the loser to
exactly 1484. -/
theorem claim_elo_update_formula :
    (∀ (elos : List (String × ℝ)) (winner loser : String) (k rw0 rl0 : ℝ),
      winner ≠ loser →
      dictGet elos winner = some rw0 →
      dictGet elos loser = some rl0 →
      ∃ elos2, elo_update elos winner loser k = some elos2 ∧
        dictGet elos2 winner =
          some (rw0 + k * (1 - 1 / (1 + (10 : ℝ) ^ ((rl0 - rw0) / 400)))) ∧
        dictGet elos2 loser =
          some (rl0 + k * (0 - 1 / (1 + (10 : ℝ) ^ ((rw0 - rl0) / 400)))) ∧
        ∀ m, m ≠ winner → m ≠ loser → dictGet elos2 m = dictGet elos m) ∧
    (∃ elos2, elo_update [("A", (1500 : ℝ)), ("B", (1500 : ℝ))] "A" "B" 32 = some elos2 ∧
      dictGet elos2 "A" = some (1516 : ℝ) ∧ dictGet elos2 "B" = some (1484 : ℝ)) := by
  have gen : ∀ (elos : List (String × ℝ)) (winner loser : String) (k rw0 rl0 : ℝ),
      winner ≠ loser →
      dictGet elos winner = some rw0 →
      dictGet elos loser = some rl0 →
      ∃ elos2, elo_update elos winner loser k = some elos2 ∧
        dictGet elos2 winner =
          some (rw0 + k * (1 - 1 / (1 + (10 : ℝ) ^ ((rl0 - rw0) / 400)))) ∧
        dictGet elos2 loser =
          some (rl0 + k * (0 - 1 / (1 + (10 : ℝ) ^ ((rw0 - rl0) / 400)))) ∧
        ∀ m, m ≠ winner → m ≠ loser → dictGet elos2 m = dictGet elos m := by
    intro elos winner loser k rw0 rl0 hne hw hl
    refine ⟨_, elo_update_eq k hw hl, ?_, ?_, ?_⟩
    · rw [dictGet_setKey_ne _ _ hne, dictGet_setKey_self]
    · rw [dictGet_setKey_self]
    · intro m hmw hml
      rw [dictGet_setKey_ne _ _ hml, dictGet_setKey_ne _ _ hmw]
  refine ⟨gen, ?_⟩
  obtain ⟨elos2, he, hw, hl, -⟩ :=
    gen [("A", (1500 : ℝ)), ("B", (1500 : ℝ))] "A" "B" 32 1500 1500 (by decide)
      (by simp [dictGet]) (by simp [dictGet])
  have hz : (((1500 : ℝ) - 1500) / 400) = 0 := by norm_num
  have hvw : (1500 : ℝ) + 32 * (1 - 1 / (1 + (10 : ℝ) ^ (((1500 : ℝ) - 1500) / 400))) = 1516 := by
    rw [hz, Real.rpow_zero]
    norm_num
  have hvl : (1500 : ℝ) + 32 * (0 - 1 / (1 + (10 : ℝ) ^ (((1500 : ℝ) - 1500) / 400))) = 1484 := by
    rw [hz, Real.rpow_zero]
    norm_num
  rw [hvw] at hw
  rw [hvl] at hl
  exact ⟨elos2, he, hw, hl⟩

/-- Witness for C3: the general Elo-update statement applied to the
concrete two-model ratings map (1200, 1400) with k = 32. -/
theorem claim_elo_update_formula_witness :
    ∃ elos2, elo_update [("A", (1200 : ℝ)), ("B", (1400 : ℝ))] "A" "B" 32 = some elos2 ∧
      dictGet elos2 "A" =
        some (1200 + 32 * (1 - 1 / (1 + (10 : ℝ) ^ (((1400 : ℝ) - 1200) / 400)))) ∧
      dictGet elos2 "B" =
        some (1400 + 32 * (0 - 1 / (1 + (10 : ℝ) ^ (((1200 : ℝ) - 1400) / 400)))) ∧
      ∀ m, m ≠ "A" → m ≠ "B" →
        dictGet elos2 m = dictGet [("A", (1200 : ℝ)), ("B", (1400 : ℝ))] m :=
  claim_elo_update_formula.1 [("A", (1200 : ℝ)), ("B", (1400 : ℝ))] "A" "B" 32 1200 1400
    (by decide) (by simp [dictGet]) (by simp [dictGet])
/-- C5: loading a legacy-format document (a bare ratings map with no
wrapper key) succeeds with exactly that ratings map, per-model votes
defaulting to 0 and `total_votes = 0`; and on every load each roster model
missing from the loaded document is backfilled with the default record
(rating 1500.0, votes 0), so the loaded state covers the whole roster. -/
theorem claim_load_legacy_and_backfill (models : List String) (ratings : List (String × ℝ)) :
    (load_state models (.legacy ratings)).total_votes = 0 ∧
    (∀ id v, dictGet ratings id = some v →
      dictGet (load_state models (.legacy ratings)).elos id = some v) ∧
    (∀ m, m ∈ models → dictGet ratings m = none →
      dictGet (load_state models (.legacy ratings)).elos m = some 1500) ∧
    (∀ m, m ∈ models → dictGet (load_state models (.legacy ratings)).votes m = some 0) ∧
    (∀ (stored : StoredDoc) m, m ∈ models →
      (dictGet (load_state models stored).elos m).isSome = true ∧
      (dictGet (load_state models stored).votes m).isSome = true ∧
      (dictGet stored.rawElos m = none →
        dictGet (load_state models stored).elos m = some 1500) ∧
      (dictGet stored.rawVotes m = none →
        dictGet (load_state models stored).votes m = some 0)) := by
  refine ⟨rfl, ?_, ?_, ?_, ?_⟩
  · intro id v h
    exact dictGet_backfill_of_some models 1500 h
  · intro m hm h
    exact dictGet_backfill_of_none_of_mem 1500 h hm
  · intro m hm
    exact dictGet_backfill_of_none_of_mem 0 (by simp [dictGet]) hm
  · intro stored m hm
    exact ⟨dictGet_backfill_isSome _ 1500 hm, dictGet_backfill_isSome _ 0 hm,
      fun h => dictGet_backfill_of_none_of_mem 1500 h hm,
      fun h => dictGet_backfill_of_none_of_mem 0 h hm⟩

/-- Witness for C5: a two-model roster with a legacy document holding one
rating; the absent model is backfilled and votes default to 0. -/
theorem claim_load_legacy_and_backfill_witness :
    (load_state ["A", "B"] (.legacy [("A", (1200 : ℝ))])).total_votes = 0 ∧
    dictGet (load_state ["A", "B"] (.legacy [("A", (1200 : ℝ))])).elos "A" =
      some (1200 : ℝ) ∧
    dictGet (load_state ["A", "B"] (.legacy [("A", (1200 : ℝ))])).elos "B" =
      some (1500 : ℝ) ∧
    dictGet (load_state ["A", "B"] (.legacy [("A", (1200 : ℝ))])).votes "B" = some 0 ∧
    (dictGet (load_state ["A", "B"] (.wrapped [] [] 7)).elos "A").isSome = true :=
  ⟨(claim_load_legacy_and_backfill ["A", "B"] [("A", (1200 : ℝ))]).1,
    (claim_load_legacy_and_backfill ["A", "B"] [("A", (1200 : ℝ))]).2.1 "A" 1200
      (by simp [dictGet]),
    (claim_load_legacy_and_backfill ["A", "B"] [("A", (1200 : ℝ))]).2.2.1 "B"
      (by simp) (by simp [dictGet]),
    (claim_load_legacy_and_backfill ["A", "B"] [("A", (1200 : ℝ))]).2.2.2.1 "B" (by simp),
    ((claim_load_legacy_and_backfill ["A", "B"] []).2.2.2.2 (.wrapped [] [] 7) "A"
      (by simp)).1⟩

/-- C8: persisting a rating state whose maps cover the whole roster and
reloading it is the identity on ratings, votes and the global counter. -/
theorem claim_save_load_roundtrip (models : List String) (state : EloState)
    (h : ∀ m ∈ models,
      (dictGet state.elos m).isSome = true ∧ (dictGet state.votes m).isSome = true) :
    load_state models (save_state state) = state := by
  obtain ⟨elos, votes, total⟩ := state
  simp only [load_state, save_state, StoredDoc.rawElos, StoredDoc.rawVotes,
    StoredDoc.rawTotal]
  rw [backfill_eq_self _ fun m hm => (h m hm).1, backfill_eq_self _ fun m hm => (h m hm).2]

/-- Witness for C8: a concrete one-model state with nonzero votes and
counter survives the save/load round trip unchanged. -/
theorem claim_save_load_roundtrip_witness :
    load_state ["A"] (save_state ⟨[("A", (1480 : ℝ))], [("A", 3)], 5⟩) =
      ⟨[("A", (1480 : ℝ))], [("A", 3)], 5⟩ :=
  claim_save_load_roundtrip ["A"] ⟨[("A", (1480 : ℝ))], [("A", 3)], 5⟩
    (by intro m hm; simp at hm; subst hm; exact ⟨by simp [dictGet], by simp [dictGet]⟩)

/-- C10: for any persisted document, a loaded state has a rating entry for
every model of a category-index entry, so the rating lookups inside
`elo_update` cannot hit a missing key for a pair drawn by matchmaking; the
`KeyError` branch is unreachable. -/
theorem claim_elo_lookup_safe (models : List String) (jokes : Catalog) (stored : StoredDoc)
    (category : String) (entry : List String) (a b : String)
    (HJ : ∀ p ∈ jokes, (keys p.2).Nodup)
    (hidx : dictGet (build_category_index models jokes) category = some entry)
    (ha : a ∈ entry) (hb : b ∈ entry) :
    (dictGet (load_state models stored).elos a).isSome = true ∧
    (dictGet (load_state models stored).elos b).isSome = true ∧
    (elo_update (load_state models stored).elos a b 32).isSome = true := by
  have hpr : (category, entry) ∈ build_category_index models jokes := dictGet_mem hidx
  have hma : a ∈ models := (mem_category_index_entry HJ hpr ha).1
  have hmb : b ∈ models := (mem_category_index_entry HJ hpr hb).1
  have hsa : (dictGet (load_state models stored).elos a).isSome = true :=
    dictGet_backfill_isSome _ 1500 hma
  have hsb : (dictGet (load_state models stored).elos b).isSome = true :=
    dictGet_backfill_isSome _ 1500 hmb
  obtain ⟨ra, hra⟩ := Option.isSome_iff_exists.1 hsa
  obtain ⟨rb, hrb⟩ := Option.isSome_iff_exists.1 hsb
  refine ⟨hsa, hsb, ?_⟩
  rw [elo_update_eq 32 hra hrb]
  rfl

/-- Witness for C10: a two-model catalog sharing one category; both
lookups and the Elo update succeed on the freshly loaded state. -/
theorem claim_elo_lookup_safe_witness :
    (dictGet (load_state ["A", "B"] (.legacy [])).elos "A").isSome = true ∧
    (dictGet (load_state ["A", "B"] (.legacy [])).elos "B").isSome = true ∧
    (elo_update (load_state ["A", "B"] (.legacy [])).elos "A" "B" 32).isSome = true :=
  claim_elo_lookup_safe ["A", "B"] [("A", [("puns", ["j1"])]), ("B", [("puns", ["j2"])])]
    (.legacy []) "puns" ["A", "B"] "A" "B"
    (by intro p hp; simp at hp; rcases hp with hp | hp <;> simp [hp, keys])
    (by decide) (by decide) (by decide)
/-- C6: the leaderboard derived from any rating state enumerates a
descending ordering of the stored ratings with ranks exactly 1..N, each
row showing the stored rating rounded to one decimal (the stored value
itself is only read, never modified — the rounding happens in the fresh
display row) together with that model's vote count. -/
theorem claim_leaderboard (elos : List (String × ℝ)) (votes : List (String × Int)) :
    ∃ ordered : List (String × ℝ),
      List.Perm ordered elos ∧
      ordered.Pairwise (fun a b => b.2 ≤ a.2) ∧
      (build_leaderboard elos votes).map LBEntry.rank = List.range' 1 elos.length ∧
      build_leaderboard elos votes = (List.enumFrom 1 ordered).map fun p =>
        { rank := p.1
          model := p.2.1
          elo := round1 p.2.2
          votes := (dictGet votes p.2.1).getD 0 } := by
  refine ⟨sortByEloDesc elos, List.mergeSort_perm elos _, ?_, ?_, rfl⟩
  · have hs := @List.sorted_mergeSort (String × ℝ) (fun a b => decide (b.2 ≤ a.2))
      (fun a b c hab hbc => by
        simp only [decide_eq_true_eq] at hab hbc ⊢
        exact le_trans hbc hab)
      (fun a b => by
        simp only [Bool.or_eq_true, decide_eq_true_eq]
        exact le_total b.2 a.2)
      elos
    exact hs.imp fun h => of_decide_eq_true h
  · unfold build_leaderboard
    rw [List.map_map]
    have : (LBEntry.rank ∘ fun p : Nat × (String × ℝ) =>
        ({ rank := p.1, model := p.2.1, elo := round1 p.2.2,
           votes := (dictGet votes p.2.1).getD 0 } : LBEntry)) = Prod.fst := rfl
    rw [this, List.enumFrom_map_fst]
    congr 1
    exact (List.mergeSort_perm elos _).length_eq

/-- Witness for C6: the leaderboard specification instantiated at a
concrete two-model state. -/
theorem claim_leaderboard_witness :
    ∃ ordered : List (String × ℝ),
      List.Perm ordered [("A", (1490 : ℝ)), ("B", (1510 : ℝ))] ∧
      ordered.Pairwise (fun a b => b.2 ≤ a.2) ∧
      (build_leaderboard [("A", (1490 : ℝ)), ("B", (1510 : ℝ))] [("A", 1), ("B", 2)]).map
        LBEntry.rank = List.range' 1 2 ∧
      build_leaderboard [("A", (1490 : ℝ)), ("B", (1510 : ℝ))] [("A", 1), ("B", 2)] =
        (List.enumFrom 1 ordered).map fun p =>
          { rank := p.1
            model := p.2.1
            elo := round1 p.2.2
            votes := (dictGet [("A", 1), ("B", 2)] p.2.1).getD 0 } :=
  claim_leaderboard [("A", (1490 : ℝ)), ("B", (1510 : ℝ))] [("A", 1), ("B", 2)]
/-- C1: once a submission for a token succeeds, the pending comparison is
removed from the ledger; after any further operations that do not register
the same token afresh it is still absent, and a later well-formed
submission of the same token fails with `UnknownToken`. -/
theorem claim_token_consumed_once (models : List String) (ledger : Ledger)
    (stored : StoredDoc) (battle_id winner : String) (ops : List Op)
    (hnd : (keys ledger).Nodup)
    (hok : (api_battle_result models ledger stored battle_id winner).outcome.isOk = true)
    (hfresh : ∀ pair, Op.select battle_id pair ∉ ops) :
    dictGet (runOps models ((api_battle_result models ledger stored battle_id winner).ledger,
      (api_battle_result models ledger stored battle_id winner).stored) ops).1.1
        battle_id = none ∧
    ∀ (stored2 : StoredDoc) (winner2 : String), winner2 ≠ "" →
      (api_battle_result models
        (runOps models ((api_battle_result models ledger stored battle_id winner).ledger,
          (api_battle_result models ledger stored battle_id winner).stored) ops).1.1
        stored2 battle_id winner2).outcome = .unknownToken := by
  obtain ⟨hbid, hledger⟩ := api_ok_ledger models ledger stored battle_id winner hok
  have h0 : dictGet (api_battle_result models ledger stored battle_id winner).ledger
      battle_id = none := by
    rw [hledger]
    exact dictGet_eraseKey_self hnd
  have h1 := @runOps_token_none models battle_id ops
    ((api_battle_result models ledger stored battle_id winner).ledger,
      (api_battle_result models ledger stored battle_id winner).stored) h0 hfresh
  refine ⟨h1, ?_⟩
  intro stored2 winner2 hw2
  have hf : ¬(battle_id = "" ∨ winner2 = "") := by
    push_neg
    exact ⟨hbid, hw2⟩
  generalize hL : (runOps models
    ((api_battle_result models ledger stored battle_id winner).ledger,
      (api_battle_result models ledger stored battle_id winner).stored) ops).1.1 = L at h1 ⊢
  simp [api_battle_result, if_neg hf, h1]

/-- Witness for C1: a successful consumption of token `"t"` followed by no
further operations; resubmitting `"t"` yields `UnknownToken`. -/
theorem claim_token_consumed_once_witness :
    dictGet (runOps ["A", "B"]
      ((api_battle_result ["A", "B"] [("t", ⟨"A", "B"⟩)] (.legacy []) "t" "A").ledger,
        (api_battle_result ["A", "B"] [("t", ⟨"A", "B"⟩)] (.legacy []) "t" "A").stored)
      []).1.1 "t" = none ∧
    (api_battle_result ["A", "B"]
      (runOps ["A", "B"]
        ((api_battle_result ["A", "B"] [("t", ⟨"A", "B"⟩)] (.legacy []) "t" "A").ledger,
          (api_battle_result ["A", "B"] [("t", ⟨"A", "B"⟩)] (.legacy []) "t" "A").stored)
        []).1.1 (.legacy []) "t" "B").outcome = .unknownToken := by
  have h := claim_token_consumed_once ["A", "B"] [("t", ⟨"A", "B"⟩)] (.legacy []) "t" "A" []
    (by simp [keys])
    (by
      rw [@api_ok_characterization ["A", "B"] [("t", ⟨"A", "B"⟩)] (.legacy []) "t" "A" "B"
        ⟨"A", "B"⟩ 1500 1500 (by decide) (by decide) (by simp [dictGet]) (Or.inl rfl)
        (by decide) (by decide)
        (by simp [dictGet, load_state, StoredDoc.rawElos, backfill, setdefault])
        (by simp [dictGet, load_state, StoredDoc.rawElos, backfill, setdefault])]
      rfl)
    (by intro pair hp; simp at hp)
  exact ⟨h.1, h.2 (.legacy []) "B" (by decide)⟩
/-- C2: a successful submission performs exactly the Elo update on the two
contestants, one increment of the winner's vote count, and one increment
of the global counter, leaving every other rating and vote count
unchanged; and over any operation sequence the persisted global counter
grows by exactly the number of successful submissions. -/
theorem claim_submit_effects_and_vote_accounting :
    (∀ (models : List String) (ledger : Ledger) (stored : StoredDoc)
      (battle_id winner loser : String) (pair : BattlePair) (rw0 rl0 : ℝ),
      battle_id ≠ "" → winner ≠ "" →
      dictGet ledger battle_id = some pair →
      winner = pair.model_a ∨ winner = pair.model_b →
      pair.model_a ≠ pair.model_b →
      loser = (if winner = pair.model_a then pair.model_b else pair.model_a) →
      dictGet (load_state models stored).elos winner = some rw0 →
      dictGet (load_state models stored).elos loser = some rl0 →
      (api_battle_result models ledger stored battle_id winner).outcome.isOk = true ∧
      dictGet (api_battle_result models ledger stored battle_id winner).stored.rawElos
          winner =
        some (rw0 + 32 * (1 - 1 / (1 + (10 : ℝ) ^ ((rl0 - rw0) / 400)))) ∧
      dictGet (api_battle_result models ledger stored battle_id winner).stored.rawElos
          loser =
        some (rl0 + 32 * (0 - 1 / (1 + (10 : ℝ) ^ ((rw0 - rl0) / 400)))) ∧
      (∀ m, m ≠ winner → m ≠ loser →
        dictGet (api_battle_result models ledger stored battle_id winner).stored.rawElos m =
          dictGet (load_state models stored).elos m) ∧
      dictGet (api_battle_result models ledger stored battle_id winner).stored.rawVotes
          winner =
        some ((dictGet (load_state models stored).votes winner).getD 0 + 1) ∧
      (∀ m, m ≠ winner →
        dictGet (api_battle_result models ledger stored battle_id winner).stored.rawVotes m =
          dictGet (load_state models stored).votes m) ∧
      (api_battle_result models ledger stored battle_id winner).stored.rawTotal =
        (load_state models stored).total_votes + 1) ∧
    (∀ (models : List String) (s : Ledger × StoredDoc) (ops : List Op),
      (runOps models s ops).1.2.rawTotal =
        s.2.rawTotal + ((runOps models s ops).2 : ℤ)) := by
  refine ⟨?_, fun models s ops => runOps_rawTotal ops s⟩
  intro models ledger stored battle_id winner loser pair rw0 rl0 hb hw hpair hwin hab hloser
    hrw hrl
  have hwl : winner ≠ loser := by
    rw [hloser]
    by_cases h2 : winner = pair.model_a
    · rw [if_pos h2, h2]
      exact hab
    · rw [if_neg h2]
      exact h2
  rw [api_ok_characterization hb hw hpair hwin hab hloser hrw hrl]
  refine ⟨rfl, ?_, ?_, ?_, ?_, ?_, rfl⟩
  · show dictGet (setKey (setKey (load_state models stored).elos winner _) loser _) winner = _
    rw [dictGet_setKey_ne _ _ hwl, dictGet_setKey_self]
  · show dictGet (setKey (setKey (load_state models stored).elos winner _) loser _) loser = _
    rw [dictGet_setKey_self]
  · intro m hmw hml
    show dictGet (setKey (setKey (load_state models stored).elos winner _) loser _) m = _
    rw [dictGet_setKey_ne _ _ hml, dictGet_setKey_ne _ _ hmw]
  · show dictGet (setKey (load_state models stored).votes winner _) winner = _
    rw [dictGet_setKey_self]
  · intro m hmw
    show dictGet (setKey (load_state models stored).votes winner _) m = _
    rw [dictGet_setKey_ne _ _ hmw]

/-- Witness for C2: the per-call effects at a concrete two-model store and
the vote accounting over the empty operation sequence. -/
theorem claim_submit_effects_and_vote_accounting_witness :
    ((api_battle_result ["A", "B"] [("t", ⟨"A", "B"⟩)] (.legacy []) "t" "A").outcome.isOk =
      true ∧
    (api_battle_result ["A", "B"] [("t", ⟨"A", "B"⟩)] (.legacy []) "t" "A").stored.rawTotal =
      (load_state ["A", "B"] (.legacy [])).total_votes + 1) ∧
    (runOps ["A", "B"] ([("t", ⟨"A", "B"⟩)], .legacy []) []).1.2.rawTotal =
      (StoredDoc.legacy []).rawTotal +
        ((runOps ["A", "B"] ([("t", ⟨"A", "B"⟩)], .legacy []) []).2 : ℤ) := by
  have h := claim_submit_effects_and_vote_accounting.1 ["A", "B"] [("t", ⟨"A", "B"⟩)]
    (.legacy []) "t" "A" "B" ⟨"A", "B"⟩ 1500 1500 (by decide) (by decide)
    (by simp [dictGet]) (Or.inl rfl) (by decide) (by decide)
    (by simp [dictGet, load_state, StoredDoc.rawElos, backfill, setdefault])
    (by simp [dictGet, load_state, StoredDoc.rawElos, backfill, setdefault])
  exact ⟨⟨h.1, h.2.2.2.2.2.2⟩,
    claim_submit_effects_and_vote_accounting.2 ["A", "B"] ([("t", ⟨"A", "B"⟩)], .legacy []) []⟩

/-- C4: submitting a winner that is not part of the recorded pair returns
`InvalidWinner`, leaves the persisted rating document untouched, and still
consumes the token (the pop precedes winner validation). -/
theorem claim_invalid_winner (models : List String) (ledger : Ledger) (stored : StoredDoc)
    (battle_id winner : String) (pair : BattlePair)
    (hnd : (keys ledger).Nodup)
    (hb : battle_id ≠ "") (hw : winner ≠ "")
    (hpair : dictGet ledger battle_id = some pair)
    (hna : winner ≠ pair.model_a) (hnb : winner ≠ pair.model_b) :
    api_battle_result models ledger stored battle_id winner =
      { ledger := eraseKey ledger battle_id
        stored := stored
        outcome := .invalidWinner } ∧
    dictGet (api_battle_result models ledger stored battle_id winner).ledger battle_id =
      none := by
  have hchar := @api_invalid_winner_characterization models ledger stored battle_id winner
    pair hb hw hpair hna hnb
  refine ⟨hchar, ?_⟩
  rw [hchar]
  exact dictGet_eraseKey_self hnd

/-- Witness for C4: submitting `"C"` against the pair (`"A"`, `"B"`). -/
theorem claim_invalid_winner_witness :
    api_battle_result ["A", "B"] [("t", ⟨"A", "B"⟩)] (.legacy []) "t" "C" =
      { ledger := eraseKey [("t", ⟨"A", "B"⟩)] "t"
        stored := .legacy []
        outcome := .invalidWinner } ∧
    dictGet (api_battle_result ["A", "B"] [("t", ⟨"A", "B"⟩)] (.legacy []) "t" "C").ledger
      "t" = none :=
  claim_invalid_winner ["A", "B"] [("t", ⟨"A", "B"⟩)] (.legacy []) "t" "C" ⟨"A", "B"⟩
    (by simp [keys]) (by decide) (by decide) (by simp [dictGet]) (by decide) (by decide)
theorem build_category_index_keys_nodup (models : List String) (jokes : Catalog) :
    (keys (build_category_index models jokes)).Nodup := by
  unfold build_category_index
  have h := @foldl_indexInsert_keys_nodup jokes models [] (by simp)
  exact ((List.filter_sublist _).map Prod.fst).nodup h

/-- C7: every comparison returned by `select_battle` pairs two distinct
models, both members of the category-index entry for the returned
category, and each contestant's joke is drawn from that model's nonempty
pool for the category. -/
theorem claim_select_battle_contestants (models : List String) (jokes : Catalog)
    (stored : StoredDoc) (battle_id : String) (ch : Choices) (ledger : Ledger)
    (ledger2 : Ledger) (resp : BattleResponse)
    (hmodels : models.Nodup)
    (HJ : ∀ p ∈ jokes, (keys p.2).Nodup)
    (hok : select_battle models jokes stored battle_id ch ledger = .ok (ledger2, resp)) :
    ∃ entry a b jokeA jokeB ra rb,
      dictGet (build_category_index models jokes) resp.category = some entry ∧
      resp.contestants = [{ id := a, joke := jokeA, rank := ra },
        { id := b, joke := jokeB, rank := rb }] ∧
      a ≠ b ∧ a ∈ entry ∧ b ∈ entry ∧
      (∃ cm pool, dictGet jokes a = some cm ∧ dictGet cm resp.category = some pool ∧
        pool ≠ [] ∧ jokeA ∈ pool) ∧
      (∃ cm pool, dictGet jokes b = some cm ∧ dictGet cm resp.category = some pool ∧
        pool ≠ [] ∧ jokeB ∈ pool) := by
  match hci : build_category_index models jokes with
  | [] =>
    rw [select_battle, hci] at hok
    cases hok
  | c0 :: rest =>
    obtain ⟨category, entry, a, b, jA, jB, ra, rb, hmem, hlen, ha, hb, hne, hpa, hpb, heq⟩ :=
      select_from_ok stored battle_id ch ledger HJ c0 rest hci
    rw [heq] at hok
    rw [Except.ok.injEq] at hok
    obtain ⟨hl2, hr2⟩ := Prod.mk.injEq .. |>.mp hok
    subst hr2
    obtain ⟨cmA, poolA, hja, hca, hmja⟩ := hpa
    obtain ⟨cmB, poolB, hjb, hcb, hmjb⟩ := hpb
    refine ⟨entry, a, b, jA, jB, ra, rb, ?_, rfl, hne hmodels, ha, hb,
      ⟨cmA, poolA, hja, hca, List.ne_nil_of_mem hmja, hmja⟩,
      ⟨cmB, poolB, hjb, hcb, List.ne_nil_of_mem hmjb, hmjb⟩⟩
    exact hci ▸ dictGet_of_mem_nodup (build_category_index_keys_nodup models jokes) hmem
/-- Witness for C7: a concrete two-model catalog sharing the category
`"puns"`; the returned comparison satisfies every contestant property. -/
theorem claim_select_battle_contestants_witness :
    ∃ (ledger2 : Ledger) (resp : BattleResponse),
      select_battle ["A", "B"] [("A", [("puns", ["j1"])]), ("B", [("puns", ["j2"])])]
        (.legacy []) "t" ⟨0, 0, 0, 0, 0⟩ [] = .ok (ledger2, resp) ∧
      ∃ entry a b jokeA jokeB ra rb,
        dictGet (build_category_index ["A", "B"]
          [("A", [("puns", ["j1"])]), ("B", [("puns", ["j2"])])]) resp.category =
            some entry ∧
        resp.contestants = [{ id := a, joke := jokeA, rank := ra },
          { id := b, joke := jokeB, rank := rb }] ∧
        a ≠ b ∧ a ∈ entry ∧ b ∈ entry ∧
        (∃ cm pool, dictGet [("A", [("puns", ["j1"])]), ("B", [("puns", ["j2"])])] a =
          some cm ∧ dictGet cm resp.category = some pool ∧ pool ≠ [] ∧ jokeA ∈ pool) ∧
        (∃ cm pool, dictGet [("A", [("puns", ["j1"])]), ("B", [("puns", ["j2"])])] b =
          some cm ∧ dictGet cm resp.category = some pool ∧ pool ≠ [] ∧ jokeB ∈ pool) := by
  obtain ⟨category, entry, a, b, jA, jB, ra, rb, hmem, hlen, ha, hb, hne, hpa, hpb, heq⟩ :=
    @select_from_ok ["A", "B"] [("A", [("puns", ["j1"])]), ("B", [("puns", ["j2"])])]
      (.legacy []) "t" ⟨0, 0, 0, 0, 0⟩ []
      (by intro p hp; simp at hp; rcases hp with hp | hp <;> simp [hp, keys])
      ("puns", ["A", "B"]) [] (by decide)
  exact ⟨_, _, heq,
    claim_select_battle_contestants ["A", "B"]
      [("A", [("puns", ["j1"])]), ("B", [("puns", ["j2"])])] (.legacy []) "t"
      ⟨0, 0, 0, 0, 0⟩ [] _ _ (by decide)
      (by intro p hp; simp at hp; rcases hp with hp | hp <;> simp [hp, keys]) heq⟩

/-- C9: `select_battle` fails with `NoEligibleCategory` exactly when the
category index is empty; on a nonempty index it always returns a
comparison (the defensive `missingJokes` branches are unreachable). -/
theorem claim_no_eligible_category (models : List String) (jokes : Catalog)
    (stored : StoredDoc) (battle_id : String) (ch : Choices) (ledger : Ledger)
    (HJ : ∀ p ∈ jokes, (keys p.2).Nodup) :
    (select_battle models jokes stored battle_id ch ledger = .error .noEligibleCategory ↔
      build_category_index models jokes = []) ∧
    (build_category_index models jokes ≠ [] →
      ∃ r, select_battle models jokes stored battle_id ch ledger = .ok r) := by
  match hci : build_category_index models jokes with
  | [] =>
    constructor
    · constructor
      · intro _
        rfl
      · intro _
        rw [select_battle, hci]
    · intro h
      exact absurd rfl h
  | c0 :: rest =>
    obtain ⟨category, entry, a, b, jA, jB, ra, rb, -, -, -, -, -, -, -, heq⟩ :=
      select_from_ok stored battle_id ch ledger HJ c0 rest hci
    constructor
    · rw [heq]
      simp
    · intro _
      exact ⟨_, heq⟩
/-- Witness for C9: a nonempty index yields a comparison; an empty catalog
yields exactly the `NoEligibleCategory` failure. -/
theorem claim_no_eligible_category_witness :
    (∃ r, select_battle ["A", "B"] [("A", [("puns", ["j1"])]), ("B", [("puns", ["j2"])])]
      (.legacy []) "t" ⟨0, 0, 0, 0, 0⟩ [] = .ok r) ∧
    select_battle ["A"] [] (.legacy []) "t" ⟨0, 0, 0, 0, 0⟩ [] =
      .error .noEligibleCategory :=
  ⟨(claim_no_eligible_category ["A", "B"]
      [("A", [("puns", ["j1"])]), ("B", [("puns", ["j2"])])] (.legacy []) "t"
      ⟨0, 0, 0, 0, 0⟩ []
      (by intro p hp; simp at hp; rcases hp with hp | hp <;> simp [hp, keys])).2
        (by decide),
    (claim_no_eligible_category ["A"] [] (.legacy []) "t" ⟨0, 0, 0, 0, 0⟩ []
      (by simp)).1.mpr (by decide)⟩
